import Mathlib

/-!
Verification of the botfjord chess engine (MCTS core, evaluator priors, UCI
formatting and the parallel visit-count aggregator) against its specification.

The chess rules library (the `chess` crate) is an external collaborator: its
positions and moves are modelled abstractly (structure fields `Pos`, `Move`,
`legalMoves`, `makeMove`, ...), exactly as the spec treats it.  The engine's
own code (`mcts.rs`, `eval.rs`, `lib.rs`, `helpers.rs`) is embedded shallowly:
`f32` arithmetic is modelled by exact arithmetic (`ℝ` for the search, `ℚ` for
the evaluator's priors, `ℕ` for the aggregator's `usize` counts), hash maps by
association lists in iteration order, panics by `Except`/`Option` errors, and
the thread-local RNG's Dirichlet draw by an explicit sample stream.
-/

namespace Botfjord

/-! ### UCI move formatting (`lib.rs` / `helpers.rs`, function `uci`)

`chess::ChessMove` carries a source square, a destination square (both indices
0..63) and an optional promotion piece.  The `uci` function in the source
formats only source and destination via a fixed table of square names. -/

/-- Promotion piece of a chess move (the four legal promotion targets). -/
inductive Promotion where
  | knight | bishop | rook | queen
deriving DecidableEq

/-- Model of `chess::ChessMove`: source and destination square indices
(rank-major, 0..63) plus an optional promotion piece. -/
structure UciMove where
  src : Fin 64
  dst : Fin 64
  promotion : Option Promotion
deriving DecidableEq

/-- The square-name table from `uci` in `lib.rs`/`helpers.rs`, verbatim. -/
def squares : List String :=
  ["A1", "B1", "C1", "D1", "E1", "F1", "G1", "H1", "A2", "B2", "C2", "D2", "E2", "F2", "G2",
   "H2", "A3", "B3", "C3", "D3", "E3", "F3", "G3", "H3", "A4", "B4", "C4", "D4", "E4", "F4",
   "G4", "H4", "A5", "B5", "C5", "D5", "E5", "F5", "G5", "H5", "A6", "B6", "C6", "D6", "E6",
   "F6", "G6", "H6", "A7", "B7", "C7", "D7", "E7", "F7", "G7", "H7", "A8", "B8", "C8", "D8",
   "E8", "F8", "G8", "H8"]

/-- `str::to_lowercase` restricted to the ASCII strings of the table. -/
def lowerStr (s : String) : String := String.mk (s.data.map Char.toLower)

/-- `uci(action)` from `lib.rs`/`helpers.rs`: look the source and destination
squares up in the table and concatenate their lowercased names.  The
promotion piece of the move is not consulted. -/
def uci (m : UciMove) : String :=
  lowerStr (squares.getD m.src.val "") ++ lowerStr (squares.getD m.dst.val "")

/-- File letter of a square index per the spec: `file = i mod 8`, `a`..`h`. -/
def fileChar (i : Fin 64) : Char := Char.ofNat (97 + i.val % 8)

/-- Rank digit of a square index per the spec: `rank = i div 8 + 1`, `1`..`8`. -/
def rankChar (i : Fin 64) : Char := Char.ofNat (49 + i.val / 8)

/-- The spec's rendering of one square: file letter then rank digit. -/
def squareSpec (i : Fin 64) : String := String.mk [fileChar i, rankChar i]

/-- Modelled from the spec: the chess collaborator's square parser
(`chess::ChessMove::from_str` is not part of this repository).  Decodes a
file letter `a`..`h` and a rank digit `1`..`8` into the square index
`file + 8 * rank` per the spec's UCI square encoding. -/
def parseSquare (f r : Char) : Option (Fin 64) :=
  if h : 97 ≤ f.toNat ∧ f.toNat ≤ 104 ∧ 49 ≤ r.toNat ∧ r.toNat ≤ 56 then
    some ⟨(f.toNat - 97) + 8 * (r.toNat - 49), by omega⟩
  else none

/-- Modelled from the spec: promotion-piece letter of UCI notation
(glossary: `"e7e8q"`). -/
def parsePromotion (c : Char) : Option Promotion :=
  if c = 'n' then some Promotion.knight
  else if c = 'b' then some Promotion.bishop
  else if c = 'r' then some Promotion.rook
  else if c = 'q' then some Promotion.queen
  else none

/-- Modelled from the spec: the chess collaborator's UCI move parser.  Four
characters are source and destination squares; an optional fifth character
is the promotion piece. -/
def parseUci (s : String) : Option UciMove :=
  match s.data with
  | [f1, r1, f2, r2] =>
    match parseSquare f1 r1, parseSquare f2 r2 with
    | some a, some b => some ⟨a, b, none⟩
    | _, _ => none
  | [f1, r1, f2, r2, p] =>
    match parseSquare f1 r1, parseSquare f2 r2, parsePromotion p with
    | some a, some b, some pr => some ⟨a, b, some pr⟩
    | _, _, _ => none
  | _ => none

/-- Each table entry, lowercased, is the spec's file-letter/rank-digit
rendering of its index. -/
lemma lower_squares_eq_spec : ∀ i : Fin 64,
    lowerStr (squares.getD i.val "") = squareSpec i := by decide

/-- Parsing inverts the spec rendering of a single square. -/
lemma parseSquare_squareSpec : ∀ i : Fin 64,
    parseSquare (fileChar i) (rankChar i) = some i := by decide

/-- C9, counterexample: the promotion move e7→e8=Q (source index 52,
destination index 60) is rendered as `"e7e8"` — the promotion piece is
dropped — so parsing the rendering yields the promotion-free move, not the
original move.  (The move is legal in real chess, e.g. for white in FEN
`4k3/4P3/8/8/8/8/8/4K3 w - - 0 1`.) -/
theorem uci_promotion_roundtrip_cex :
    uci ⟨52, 60, some Promotion.queen⟩ = "e7e8" ∧
    parseUci (uci ⟨52, 60, some Promotion.queen⟩) = some ⟨52, 60, none⟩ ∧
    (⟨52, 60, none⟩ : UciMove) ≠ ⟨52, 60, some Promotion.queen⟩ := by
  refine ⟨by decide, by decide, by decide⟩

/-- C9 (amended): `uci` renders a move as the lowercase source square then
destination square, with `file = index mod 8` and `rank = index div 8 + 1`;
the promotion piece is never surfaced, and the round-trip
`parseUci (uci m) = some m` holds exactly for moves without a promotion. -/
theorem uci_renders_spec_and_roundtrips (m : UciMove) :
    uci m = squareSpec m.src ++ squareSpec m.dst ∧
    (m.promotion = none → parseUci (uci m) = some m) := by
  have hrender : uci m = squareSpec m.src ++ squareSpec m.dst := by
    unfold uci
    rw [lower_squares_eq_spec, lower_squares_eq_spec]
  refine ⟨hrender, fun hp => ?_⟩
  rw [hrender]
  have hdata : (squareSpec m.src ++ squareSpec m.dst).data =
      [fileChar m.src, rankChar m.src, fileChar m.dst, rankChar m.dst] := by
    rw [String.data_append]; rfl
  unfold parseUci
  rw [hdata]
  simp only [parseSquare_squareSpec]
  obtain ⟨s, d, p⟩ := m
  simp_all

/-- C9 witness: the round-trip at the concrete non-promotion move e2→e4
(source index 12, destination index 28). -/
theorem uci_renders_spec_and_roundtrips_witness :
    parseUci (uci ⟨12, 28, none⟩) = some ⟨12, 28, none⟩ :=
  (uci_renders_spec_and_roundtrips ⟨12, 28, none⟩).2 rfl

/-! ### Parallel aggregator (`lib.rs`, tail of `search_tree`)

`search_tree` initialises `move_dict : HashMap<ChessMove, usize>` with every
legal root move at 0, drains the workers' channel adding `visits as usize`
per received `(move, visits)` pair, copies the map's items (in hash-map
iteration order) into a vector, stable-sorts it ascending by count
(`sort_by_key(|x| x.1)`), reverses, and returns `uci(&results[0].0)`.

The model keys the dictionary by an arbitrary move type `M` and represents
the hash map as its entry list in iteration order; counts are `ℕ` (the
`usize` values after the `as usize` conversion of each worker's `f32`).
`Rust`'s `sort_by_key` is a stable sort, and any stable sort by the same key
produces the same list, so it is modelled by Mathlib's stable
`List.insertionSort`. -/

/-- One channel receive: `*move_dict.get_mut(&action).unwrap() += visits`.
Every entry whose key equals the received move is bumped (keys are unique in
a hash map); a missing key would panic in the source but the workers only
send legal root moves, which are all present. -/
def addResult {M : Type} [DecidableEq M] (dict : List (M × ℕ)) (p : M × ℕ) :
    List (M × ℕ) :=
  dict.map fun e => if e.1 = p.1 then (e.1, e.2 + p.2) else e

/-- Draining the channel: fold all received `(move, visits)` pairs into the
dictionary. -/
def drainResults {M : Type} [DecidableEq M] (dict recv : List (M × ℕ)) :
    List (M × ℕ) :=
  recv.foldl addResult dict

/-- Total visits received for one move: the sum the aggregate entry of that
move accumulates. -/
def recvSum {M : Type} [DecidableEq M] (recv : List (M × ℕ)) (m : M) : ℕ :=
  ((recv.filter fun p => p.1 = m).map Prod.snd).sum

/-- `results.sort_by_key(|x| x.1); results.reverse();` — stable ascending
sort by count, then reverse. -/
def sortResults {M : Type} (l : List (M × ℕ)) : List (M × ℕ) :=
  (l.insertionSort fun a b => a.2 ≤ b.2).reverse

/-- `results[0]` of the sorted, reversed vector: the returned entry.
Indexing an empty vector panics in the source; this is modelled by `none`. -/
def bestAggregate {M : Type} [DecidableEq M] (dict recv : List (M × ℕ)) :
    Option (M × ℕ) :=
  (sortResults (drainResults dict recv)).head?

lemma addResult_map_formula {M : Type} [DecidableEq M] (dict : List (M × ℕ))
    (p : M × ℕ) :
    addResult dict p = dict.map fun e => (e.1, e.2 + if e.1 = p.1 then p.2 else 0) := by
  unfold addResult
  refine List.map_congr_left fun e _ => ?_
  by_cases h : e.1 = p.1 <;> simp [h]

lemma drainResults_formula {M : Type} [DecidableEq M] (recv : List (M × ℕ)) :
    ∀ dict : List (M × ℕ),
      drainResults dict recv = dict.map fun e => (e.1, e.2 + recvSum recv e.1) := by
  induction recv with
  | nil => intro dict; simp [drainResults, recvSum]
  | cons p rest ih =>
    intro dict
    have hstep : drainResults dict (p :: rest) = drainResults (addResult dict p) rest := rfl
    rw [hstep, ih, addResult_map_formula, List.map_map]
    refine List.map_congr_left fun e _ => ?_
    simp only [Function.comp_apply]
    have : recvSum (p :: rest) e.1 = (if e.1 = p.1 then p.2 else 0) + recvSum rest e.1 := by
      by_cases h : e.1 = p.1 <;> simp [recvSum, List.filter_cons, h, eq_comm]
    rw [this]
    ring_nf

lemma sortResults_head_max {M : Type} (l : List (M × ℕ)) (hne : l ≠ []) :
    ∃ w, (sortResults l).head? = some w ∧ w ∈ l ∧ ∀ p ∈ l, p.2 ≤ w.2 := by
  haveI htot : IsTotal (M × ℕ) (fun a b : M × ℕ => a.2 ≤ b.2) :=
    ⟨fun a b => Nat.le_total a.2 b.2⟩
  haveI htrans : IsTrans (M × ℕ) (fun a b : M × ℕ => a.2 ≤ b.2) :=
    ⟨fun _ _ _ hab hbc => Nat.le_trans hab hbc⟩
  have hperm := List.perm_insertionSort (fun a b : M × ℕ => a.2 ≤ b.2) l
  have hsorted := List.sorted_insertionSort (fun a b : M × ℕ => a.2 ≤ b.2) l
  have hsne : l.insertionSort (fun a b : M × ℕ => a.2 ≤ b.2) ≠ [] := by
    intro h
    apply hne
    have hp0 : ([] : List (M × ℕ)).Perm l := h ▸ hperm
    exact hp0.symm.eq_nil
  have hw : (l.insertionSort (fun a b : M × ℕ => a.2 ≤ b.2)).getLast? =
      some ((l.insertionSort (fun a b : M × ℕ => a.2 ≤ b.2)).getLast hsne) :=
    List.getLast?_eq_getLast _ hsne
  obtain ⟨ys, hys⟩ := List.getLast?_eq_some_iff.mp hw
  refine ⟨(l.insertionSort (fun a b : M × ℕ => a.2 ≤ b.2)).getLast hsne, ?_, ?_, ?_⟩
  · unfold sortResults
    rw [List.head?_reverse]
    exact hw
  · exact hperm.mem_iff.mp (List.getLast_mem hsne)
  · intro p hp
    have hps : p ∈ l.insertionSort (fun a b : M × ℕ => a.2 ≤ b.2) := hperm.mem_iff.mpr hp
    rw [hys] at hps
    rcases List.mem_append.mp hps with hpy | hpw
    · exact (List.pairwise_append.mp (hys ▸ hsorted)).2.2 p hpy _ (List.mem_singleton_self _)
    · rw [List.mem_singleton.mp hpw]

/-- C1 (amended): after draining, each aggregate entry holds its initial
count plus the sum of the visits received for its move, and the returned
entry (`results[0]` after the stable ascending sort and reverse) has the
maximum aggregate count.  The tie-break is NOT by move identity: among
equal counts the entry occurring last in the hash map's iteration order is
returned, and that order is arbitrary. -/
theorem search_tree_returns_max_aggregate {M : Type} [DecidableEq M]
    (dict recv : List (M × ℕ)) (hne : dict ≠ []) :
    drainResults dict recv = (dict.map fun e => (e.1, e.2 + recvSum recv e.1)) ∧
    ∃ w, bestAggregate dict recv = some w ∧ w ∈ drainResults dict recv ∧
      ∀ p ∈ drainResults dict recv, p.2 ≤ w.2 := by
  refine ⟨drainResults_formula recv dict, ?_⟩
  have hdne : drainResults dict recv ≠ [] := by
    rw [drainResults_formula recv dict]
    simpa using hne
  exact sortResults_head_max (drainResults dict recv) hdne

/-- C1 witness: two legal moves `0` and `1` with received pairs summing to
5 visits for move `0` and 1 visit for move `1`. -/
theorem search_tree_returns_max_aggregate_witness :
    ([((0 : ℕ), (0 : ℕ)), (1, 0)] : List (ℕ × ℕ)) ≠ [] ∧
    (drainResults [((0 : ℕ), (0 : ℕ)), (1, 0)] [(0, 2), (1, 1), (0, 3)] =
      ([((0 : ℕ), (0 : ℕ)), (1, 0)].map fun e => (e.1, e.2 + recvSum [(0, 2), (1, 1), (0, 3)] e.1)) ∧
    ∃ w, bestAggregate [((0 : ℕ), (0 : ℕ)), (1, 0)] [(0, 2), (1, 1), (0, 3)] = some w ∧
      w ∈ drainResults [((0 : ℕ), (0 : ℕ)), (1, 0)] [(0, 2), (1, 1), (0, 3)] ∧
      ∀ p ∈ drainResults [((0 : ℕ), (0 : ℕ)), (1, 0)] [(0, 2), (1, 1), (0, 3)], p.2 ≤ w.2) :=
  ⟨by decide, search_tree_returns_max_aggregate _ _ (by decide)⟩

/-- C1, counterexample to the deterministic tie-break: the two dictionaries
below are the same aggregate mapping `{0 ↦ 5, 1 ↦ 5}` presented in the two
possible hash-map iteration orders, yet the returned entry differs (the
stable ascending sort keeps iteration order among the tied counts and the
reverse then returns the last one).  No tie-break "by move identity" can
return both `1` and `0` on the same mapping, and hash-map iteration order
is arbitrary, so the choice among tied moves is not deterministic. -/
theorem search_tree_tiebreak_cex :
    bestAggregate [((0 : ℕ), (0 : ℕ)), (1, 0)] [(0, 5), (1, 5)] = some (1, 5) ∧
    bestAggregate [((1 : ℕ), (0 : ℕ)), (0, 0)] [(0, 5), (1, 5)] = some (0, 5) := by
  refine ⟨by decide, by decide⟩

/-! ### Evaluator priors (`eval.rs`, `Evaluator::priors`)

The chess collaborator is abstracted by the structure `Chess`; `f32`
arithmetic is modelled exactly by `ℚ` (the computation uses only field
operations, `abs`, `min` and `max` on small integer-derived values). -/

/-- `chess::BoardStatus`. -/
inductive GameStatus where
  | ongoing | stalemate | checkmate
deriving DecidableEq

/-- `chess::Color`. -/
inductive PlayerColor where
  | white | black
deriving DecidableEq

/-- The operations of the chess collaborator consumed by `Evaluator::priors`:
legal-move enumeration, move application, status, the popcounts of the two
colours' combined bitboards, and the side to move. -/
structure Chess where
  Pos : Type
  Move : Type
  legalMoves : Pos → List Move
  makeMove : Pos → Move → Pos
  status : Pos → GameStatus
  whiteCount : Pos → ℕ
  blackCount : Pos → ℕ
  sideToMove : Pos → PlayerColor

/-- The `0.0000001` epsilon of `eval.rs`. -/
def epsQ : ℚ := 1 / 10000000

/-- The inner `score` closure of `Evaluator::priors`: `-16` for a checkmated
position, otherwise the white-minus-black piece-count difference from the
perspective of the side to move. -/
def moveScore (C : Chess) (st : C.Pos) : ℚ :=
  if C.status st = GameStatus.checkmate then -16
  else
    match C.sideToMove st with
    | PlayerColor.white => (C.whiteCount st : ℚ) - (C.blackCount st : ℚ)
    | PlayerColor.black => -((C.whiteCount st : ℚ) - (C.blackCount st : ℚ))

/-- `values().min_by_key(OrderedFloat)` (the source unwraps; it is only
called on a non-empty map). -/
def listMinQ : List ℚ → ℚ
  | [] => 0
  | x :: xs => xs.foldl min x

/-- `values().max_by_key(OrderedFloat)`. -/
def listMaxQ : List ℚ → ℚ
  | [] => 0
  | x :: xs => xs.foldl max x

/-- First loop of `Evaluator::priors`: every legal move paired with the
score of its successor position plus epsilon. -/
def rawScores (C : Chess) (st : C.Pos) : List (C.Move × ℚ) :=
  (C.legalMoves st).map fun a => (a, moveScore C (C.makeMove st a) + epsQ)

/-- The `new_priors` map of `Evaluator::priors`: with
`abs_min = |min value|` and `max = (max value + abs_min) * 1.25`, each raw
score `v` becomes `max - (v + abs_min)` (low raw scores get high weight). -/
def shiftedScores (C : Chess) (st : C.Pos) : List (C.Move × ℚ) :=
  let raw := rawScores C st
  let vals := raw.map Prod.snd
  let absMin := |listMinQ vals|
  let mx := (listMaxQ vals + absMin) * (5 / 4)
  raw.map fun e => (e.1, mx - (e.2 + absMin))

/-- The `sum` variable of `Evaluator::priors`: the un-normalised total the
source divides by. -/
def priorsShiftedTotal (C : Chess) (st : C.Pos) : ℚ :=
  ((shiftedScores C st).map Prod.snd).sum

/-- `Evaluator::priors` from `eval.rs`: the empty map when there are no
legal moves, otherwise the shifted scores normalised by
`1 / (sum + epsilon)`.  The hash map is modelled as the association list in
legal-move order. -/
def priorsE (C : Chess) (st : C.Pos) : List (C.Move × ℚ) :=
  if (rawScores C st).isEmpty then rawScores C st
  else (shiftedScores C st).map fun e =>
    (e.1, e.2 * (1 / (priorsShiftedTotal C st + epsQ)))

lemma foldl_min_le_init (a : ℚ) (l : List ℚ) : l.foldl min a ≤ a := by
  induction l generalizing a with
  | nil => exact le_refl a
  | cons x xs ih => exact le_trans (ih (min a x)) (min_le_left a x)

lemma foldl_min_le_mem (a y : ℚ) (l : List ℚ) (h : y ∈ l) : l.foldl min a ≤ y := by
  induction l generalizing a with
  | nil => cases h
  | cons x xs ih =>
    rcases List.mem_cons.mp h with rfl | hy
    · exact le_trans (foldl_min_le_init (min a y) xs) (min_le_right a y)
    · exact ih (min a x) hy

lemma init_le_foldl_max (a : ℚ) (l : List ℚ) : a ≤ l.foldl max a := by
  induction l generalizing a with
  | nil => exact le_refl a
  | cons x xs ih => exact le_trans (le_max_left a x) (ih (max a x))

lemma mem_le_foldl_max (a y : ℚ) (l : List ℚ) (h : y ∈ l) : y ≤ l.foldl max a := by
  induction l generalizing a with
  | nil => cases h
  | cons x xs ih =>
    rcases List.mem_cons.mp h with rfl | hy
    · exact le_trans (le_max_right a y) (init_le_foldl_max (max a y) xs)
    · exact ih (max a x) hy

lemma listMinQ_le_mem (l : List ℚ) (y : ℚ) (h : y ∈ l) : listMinQ l ≤ y := by
  cases l with
  | nil => cases h
  | cons x xs =>
    rcases List.mem_cons.mp h with rfl | hy
    · exact foldl_min_le_init y xs
    · exact foldl_min_le_mem x y xs hy

lemma mem_le_listMaxQ (l : List ℚ) (y : ℚ) (h : y ∈ l) : y ≤ listMaxQ l := by
  cases l with
  | nil => cases h
  | cons x xs =>
    rcases List.mem_cons.mp h with rfl | hy
    · exact init_le_foldl_max y xs
    · exact mem_le_foldl_max x y xs hy

/-- Every shifted value is non-negative: with `m = listMinQ`, `M = listMaxQ`
and `A = |m|` one has `(M + A) * 5/4 - (v + A) ≥ (M + A)/4 ≥ 0` for
`v ≤ M`, since `M + A ≥ M - m ≥ 0`. -/
lemma shifted_nonneg (vals : List ℚ) (hne : vals ≠ []) (v : ℚ) (hv : v ∈ vals) :
    0 ≤ (listMaxQ vals + |listMinQ vals|) * (5 / 4) - (v + |listMinQ vals|) := by
  obtain ⟨x, xs, rfl⟩ := List.exists_cons_of_ne_nil hne
  have hminmax : listMinQ (x :: xs) ≤ listMaxQ (x :: xs) :=
    le_trans (listMinQ_le_mem _ x (List.mem_cons_self x xs))
      (mem_le_listMaxQ _ x (List.mem_cons_self x xs))
  have habs : -listMinQ (x :: xs) ≤ |listMinQ (x :: xs)| := neg_le_abs _
  have hvmax : v ≤ listMaxQ (x :: xs) := mem_le_listMaxQ _ v hv
  have hMA : 0 ≤ listMaxQ (x :: xs) + |listMinQ (x :: xs)| := by linarith
  linarith

/-- C7 (amended): `priors` returns a mapping keyed exactly (and in order) by
the legal moves, all values non-negative, the empty mapping for a position
with no legal moves, and the values sum to `T / (T + ε)` where `T ≥ 0` is
the un-normalised shifted total — which is within epsilon of 1 in ordinary
positions but equals 0 whenever all raw move scores are equal and
non-positive. -/
theorem priors_contract (C : Chess) (st : C.Pos) :
    (priorsE C st).map Prod.fst = C.legalMoves st ∧
    (∀ e ∈ priorsE C st, 0 ≤ e.2) ∧
    (C.legalMoves st = [] → priorsE C st = []) ∧
    (0 ≤ priorsShiftedTotal C st ∧
      ((priorsE C st).map Prod.snd).sum =
        priorsShiftedTotal C st / (priorsShiftedTotal C st + epsQ)) := by
  have hkeys_raw : (rawScores C st).map Prod.fst = C.legalMoves st := by
    simp [rawScores, Function.comp_def]
  have hshift_nonneg : ∀ e ∈ shiftedScores C st, 0 ≤ e.2 := by
    intro e he
    simp only [shiftedScores, List.mem_map] at he
    obtain ⟨x, hx, rfl⟩ := he
    have hraw_ne : rawScores C st ≠ [] := List.ne_nil_of_mem hx
    have hvals_ne : (rawScores C st).map Prod.snd ≠ [] := by
      simpa using hraw_ne
    exact shifted_nonneg _ hvals_ne x.2 (List.mem_map_of_mem Prod.snd hx)
  have htot : 0 ≤ priorsShiftedTotal C st := by
    refine List.sum_nonneg ?_
    intro v hv
    simp only [List.mem_map] at hv
    obtain ⟨e, he, rfl⟩ := hv
    exact hshift_nonneg e he
  have hepos : 0 < priorsShiftedTotal C st + epsQ := by
    have : (0 : ℚ) < epsQ := by norm_num [epsQ]
    linarith
  by_cases hlm : C.legalMoves st = []
  · have hraw : rawScores C st = [] := by simp [rawScores, hlm]
    have hp : priorsE C st = [] := by simp [priorsE, hraw]
    have ht0 : priorsShiftedTotal C st = 0 := by
      simp [priorsShiftedTotal, shiftedScores, hraw]
    refine ⟨by simp [hp, hlm], by simp [hp], fun _ => hp, htot, ?_⟩
    simp [hp, ht0]
  · have hraw_ne : rawScores C st ≠ [] := by
      simp [rawScores, hlm]
    have hp : priorsE C st = (shiftedScores C st).map fun e =>
        (e.1, e.2 * (1 / (priorsShiftedTotal C st + epsQ))) := by
      simp [priorsE, List.isEmpty_iff, hraw_ne]
    refine ⟨?_, ?_, fun h => absurd h hlm, htot, ?_⟩
    · rw [hp]
      have : (shiftedScores C st).map Prod.fst = (rawScores C st).map Prod.fst := by
        simp [shiftedScores]
      simp only [List.map_map]
      calc ((shiftedScores C st).map
              (Prod.fst ∘ fun e => (e.1, e.2 * (1 / (priorsShiftedTotal C st + epsQ)))))
          = (shiftedScores C st).map Prod.fst := by
            exact List.map_congr_left fun e _ => rfl
        _ = C.legalMoves st := by rw [this, hkeys_raw]
    · intro e he
      rw [hp] at he
      simp only [List.mem_map] at he
      obtain ⟨x, hx, rfl⟩ := he
      have h1 : 0 ≤ x.2 := hshift_nonneg x hx
      have h2 : 0 ≤ 1 / (priorsShiftedTotal C st + epsQ) := by positivity
      exact mul_nonneg h1 h2
    · rw [hp]
      simp only [List.map_map]
      have hcomp : (Prod.snd ∘ fun e : C.Move × ℚ =>
          (e.1, e.2 * (1 / (priorsShiftedTotal C st + epsQ)))) =
          fun e : C.Move × ℚ => e.2 * (1 / (priorsShiftedTotal C st + epsQ)) := rfl
      rw [hcomp]
      have := List.sum_map_mul_right (shiftedScores C st)
        (fun e : C.Move × ℚ => e.2) (1 / (priorsShiftedTotal C st + epsQ))
      rw [this]
      have hTsum : ((shiftedScores C st).map fun e : C.Move × ℚ => e.2).sum =
          priorsShiftedTotal C st := rfl
      rw [hTsum, mul_one_div]

/-- A collaborator instance for a position with no legal moves, used to
exercise the empty-mapping clause of `priors_contract`. -/
def emptyChess : Chess where
  Pos := Unit
  Move := Unit
  legalMoves := fun _ => []
  makeMove := fun _ _ => ()
  status := fun _ => GameStatus.stalemate
  whiteCount := fun _ => 0
  blackCount := fun _ => 0
  sideToMove := fun _ => PlayerColor.white

/-- C7 witness: the no-legal-moves clause of the contract at a concrete
collaborator instance. -/
theorem priors_contract_witness : priorsE emptyChess () = [] :=
  (priors_contract emptyChess ()).2.2.1 rfl

/-- Concrete collaborator data matching a real K+Q-versus-K position with
the strong side to move (e.g. FEN `k7/8/8/8/8/8/8/KQ6 w - - 0 1`): every
legal move leads to an ongoing (or stalemate, still non-checkmate) position
with two white pieces, one black piece and black to move, so every raw move
score is `-(2 - 1) = -1`. -/
abbrev heavySideChess : Chess where
  Pos := ℕ
  Move := ℕ
  legalMoves := fun s => if s = 0 then [0, 1] else []
  makeMove := fun _ a => a + 1
  status := fun _ => GameStatus.ongoing
  whiteCount := fun _ => 2
  blackCount := fun _ => 1
  sideToMove := fun _ => PlayerColor.black

/-- C7, counterexample to "values sum to 1 modulo a small epsilon": at the
root of `heavySideChess` all raw scores are equal and non-positive, so the
shifted weights are all 0 and the returned priors are `[0, 0]` — their sum
is 0, not 1 — while the position does have two legal moves. -/
theorem priors_sum_cex :
    (priorsE heavySideChess 0).map Prod.snd = [0, 0] ∧
    (priorsE heavySideChess 0).map Prod.fst = [0, 1] ∧
    ((priorsE heavySideChess 0).map Prod.snd).sum = 0 := by
  have hraw : rawScores heavySideChess 0 = [(0, -1 + epsQ), (1, -1 + epsQ)] := by
    simp only [rawScores, heavySideChess, moveScore]
    norm_num
    decide
  have habs : |(-1 + epsQ : ℚ)| = 1 - epsQ := by
    rw [abs_of_neg (by norm_num [epsQ])]
    ring
  have hshift : shiftedScores heavySideChess 0 = [(0, 0), (1, 0)] := by
    simp only [shiftedScores, hraw, List.map_cons, List.map_nil, listMinQ, listMaxQ,
      List.foldl_cons, List.foldl_nil, min_self, max_self, habs]
    norm_num
  have htotal : priorsShiftedTotal heavySideChess 0 = 0 := by
    simp [priorsShiftedTotal, hshift]
  have hfinal : priorsE heavySideChess 0 = [(0, 0), (1, 0)] := by
    simp only [priorsE, hraw, hshift, htotal, List.isEmpty_cons, Bool.false_eq_true,
      if_false, List.map_cons, List.map_nil, zero_mul]
  simp [hfinal]

/-! ### MCTS search tree (`mcts.rs`)

The structure `MGame` bundles the collaborator operations and evaluator
functions `Tree` consumes, together with the `Tree` configuration (`c`,
`noise`) and a model of the per-worker RNG's Dirichlet draw
(`noiseSample st i` is the `i`-th sample drawn when a node for `st` is
created).  `Evaluator::priors` returns a map keyed exactly by the legal
moves (see `priors_contract`), so the lookup `Node::new` performs is
modelled by the total function `prior`.  `f32` statistics are modelled by
`ℝ`.  The iteration count of the search loop (`Limit`, elapsed time and the
two early-exit heuristics) is abstracted into an explicit iteration budget:
every claim below holds for every number of completed iterations. -/

/-- Collaborator operations, evaluator and configuration used by `Tree`. -/
structure MGame where
  Pos : Type
  Move : Type
  deq : DecidableEq Move
  legalMoves : Pos → List Move
  makeMove : Pos → Move → Pos
  ongoing : Pos → Bool
  value : Pos → ℝ
  prior : Pos → Move → ℝ
  noiseSample : Pos → ℕ → ℝ
  c : ℝ
  noise : ℝ

instance (g : MGame) : DecidableEq g.Move := g.deq

/-- `Branch` of `mcts.rs`: prior, visit count and total backed-up value. -/
structure BranchData where
  prior : ℝ
  visit_count : ℝ
  total_value : ℝ

/-- `Node` of `mcts.rs`.  The `parent`/`last_move` back-references of the
source exist only to let the backpropagation loop ascend; in this
functional model the ascent is the unwinding of `step`'s recursion, so the
tree stores only the downward structure.  Hash maps are association lists
in iteration order. -/
inductive MTree (g : MGame) : Type where
  | mk (state : g.Pos) (value : ℝ) (total_visit_count : ℝ)
      (branches : List (g.Move × BranchData))
      (children : List (g.Move × MTree g)) : MTree g

def MTree.state {g : MGame} : MTree g → g.Pos
  | .mk st _ _ _ _ => st

def MTree.value {g : MGame} : MTree g → ℝ
  | .mk _ v _ _ _ => v

def MTree.total_visit_count {g : MGame} : MTree g → ℝ
  | .mk _ _ tv _ _ => tv

def MTree.branches {g : MGame} : MTree g → List (g.Move × BranchData)
  | .mk _ _ _ brs _ => brs

def MTree.children {g : MGame} : MTree g → List (g.Move × MTree g)
  | .mk _ _ _ _ chs => chs

/-- `HashMap::get` on an association list. -/
def alookup {κ ν : Type} [DecidableEq κ] : List (κ × ν) → κ → Option ν
  | [], _ => none
  | e :: rest, k => if e.1 = k then some e.2 else alookup rest k

/-- The priors `Node::new` stores, after `create_node`'s Dirichlet step:
when the configured noise is non-zero and the position has more than one
legal move, each prior is mixed half-and-half with a Dirichlet sample;
otherwise the evaluator's priors are used unchanged.  The source applies
this to every created node, root or not.  (The source zips the hash map's
iteration order with the sample vector; as both the order and the draw are
arbitrary, the model fixes legal-move order against the sample stream.) -/
noncomputable def nodePriors (g : MGame) (st : g.Pos) : List (g.Move × ℝ) :=
  if g.noise ≠ 0 ∧ 1 < (g.legalMoves st).length then
    (g.legalMoves st).mapIdx fun i a =>
      (a, g.prior st a * (1 / 2) + g.noiseSample st i * (1 / 2))
  else (g.legalMoves st).map fun a => (a, g.prior st a)

/-- `Tree::create_node` followed by `Node::new`: evaluate the state, build
one zero-count branch per legal move carrying its (possibly noise-mixed)
prior, no children, total visit count 1. -/
noncomputable def createNode (g : MGame) (st : g.Pos) : MTree g :=
  MTree.mk st (g.value st) 1
    ((nodePriors g st).map fun e => (e.1, ⟨e.2, 0, 0⟩)) []

/-- `Node::expected_value`: mean backed-up value of a branch, 0 while the
branch is unvisited.  (A missing key would panic in the source; selection
only queries keys of `branches`, so the `none` default is unreachable.) -/
noncomputable def MTree.expectedValue {g : MGame} (t : MTree g) (a : g.Move) : ℝ :=
  match alookup t.branches a with
  | some b => if b.visit_count = 0 then 0 else b.total_value / b.visit_count
  | none => 0

/-- `Node::prior` (same unreachable-default remark). -/
noncomputable def MTree.priorOf {g : MGame} (t : MTree g) (a : g.Move) : ℝ :=
  match alookup t.branches a with
  | some b => b.prior
  | none => 0

/-- `Node::visit_count` (the source itself returns `0.0` for a missing
key). -/
noncomputable def MTree.visitCount {g : MGame} (t : MTree g) (a : g.Move) : ℝ :=
  match alookup t.branches a with
  | some b => b.visit_count
  | none => 0

/-- The `score_branch` closure of `Tree::select_branch`:
`q + c * p * sqrt(ln(N) / (n + 1e-7))`. -/
noncomputable def scoreBranch {g : MGame} (t : MTree g) (a : g.Move) : ℝ :=
  t.expectedValue a +
    g.c * t.priorOf a *
      Real.sqrt (Real.log t.total_visit_count / (t.visitCount a + 1 / 10000000))

/-- Errors of the modelled search.  `emptyMoveList` models the
index-out-of-bounds panic of `node.moves()[0]` in `Tree::select_branch`
when a node has no legal moves.  `terminalAtRoot` is modelled from the
spec's error taxonomy (a terminal-at-root report surfaced before searching)
— the source never produces it. -/
inductive SearchError where
  | emptyMoveList
  | terminalAtRoot
deriving DecidableEq

/-- `Iterator::max_by_key` over a non-empty list: among equal keys the last
element wins. -/
noncomputable def maxByLast {α : Type} (f : α → ℝ) : List α → Option α
  | [] => none
  | x :: xs => some (xs.foldl (fun acc y => if f acc ≤ f y then y else acc) x)

/-- `Tree::select_branch`: argmax of `score_branch` over the node's moves;
on a node with no moves the source prints an error and panics indexing the
empty vector, modelled as `emptyMoveList`. -/
noncomputable def selectBranch {g : MGame} (t : MTree g) : Except SearchError g.Move :=
  match maxByLast (scoreBranch t) (t.branches.map Prod.fst) with
  | some m => Except.ok m
  | none => Except.error SearchError.emptyMoveList

/-- `Node::record_visit`: bump the branch of `a` and the node's total visit
count by one, adding `v` to the branch's total value.  (A missing key would
panic in the source; `step` only records the selected move, which is a key
of `branches`.) -/
noncomputable def recordVisit {g : MGame} (t : MTree g) (a : g.Move) (v : ℝ) : MTree g :=
  match t with
  | .mk st val tv brs chs =>
    .mk st val (tv + 1)
      (brs.map fun e =>
        if e.1 = a then (e.1, ⟨e.2.prior, e.2.visit_count + 1, e.2.total_value + v⟩) else e)
      chs

/-- `Node::add_child`.  `step` only calls it for a move with no existing
child, so the hash-map insert is a pure extension. -/
noncomputable def addChild {g : MGame} (t : MTree g) (a : g.Move) (c : MTree g) : MTree g :=
  match t with
  | .mk st val tv brs chs => .mk st val tv brs (chs ++ [(a, c)])

/-- In-place mutation of a child through its `Rc<RefCell<_>>` handle,
functionally: replace the child stored under `a`. -/
noncomputable def replaceChild {g : MGame} (t : MTree g) (a : g.Move) (c : MTree g) :
    MTree g :=
  match t with
  | .mk st val tv brs chs =>
    .mk st val tv brs (chs.map fun e => if e.1 = a then (e.1, c) else e)

lemma alookup_sizeOf_lt {κ ν : Type} [DecidableEq κ] [SizeOf κ] [SizeOf ν]
    (l : List (κ × ν)) (k : κ) (v : ν) (h : alookup l k = some v) :
    sizeOf v < sizeOf l := by
  induction l with
  | nil => simp [alookup] at h
  | cons e rest ih =>
    rw [alookup] at h
    by_cases hk : e.1 = k
    · rw [if_pos hk] at h
      obtain ⟨k1, v1⟩ := e
      obtain rfl : v1 = v := by simpa using h
      simp only [List.cons.sizeOf_spec, Prod.mk.sizeOf_spec]
      omega
    · rw [if_neg hk] at h
      have := ih h
      simp only [List.cons.sizeOf_spec]
      omega

lemma MTree.sizeOf_children_lt {g : MGame} (t : MTree g) :
    sizeOf t.children < sizeOf t := by
  cases t with
  | mk st v tv brs chs =>
    simp only [MTree.children, MTree.mk.sizeOf_spec]
    omega

/-- One iteration of the `loop` in `Tree::search`: descend along existing
children by repeated selection, expand the first selected move without a
child, link the new child only when its state is ongoing, and backpropagate
with a sign flip per ply (the returned value is the one recorded at this
node; the caller, one ply up, records its negation).  The value
backpropagated from the new leaf is `-child.value`. -/
noncomputable def step {g : MGame} (t : MTree g) : Except SearchError (MTree g × ℝ) :=
  match selectBranch t with
  | Except.error e => Except.error e
  | Except.ok m =>
    match h : alookup t.children m with
    | some c =>
      match step c with
      | Except.error e => Except.error e
      | Except.ok (c2, v) => Except.ok (recordVisit (replaceChild t m c2) m (-v), -v)
    | none =>
      let st2 := g.makeMove t.state m
      let child := createNode g st2
      let t2 := if g.ongoing st2 then addChild t m child else t
      Except.ok (recordVisit t2 m (-child.value), -child.value)
termination_by sizeOf t
decreasing_by
  exact Nat.lt_trans (alookup_sizeOf_lt t.children m c h) t.sizeOf_children_lt

/-- `n` completed iterations of the search loop, threading the (modelled)
panic. -/
noncomputable def iterateN {g : MGame} : ℕ → MTree g → Except SearchError (MTree g)
  | 0, t => Except.ok t
  | n + 1, t =>
    match step t with
    | Except.error e => Except.error e
    | Except.ok (t2, _) => iterateN n t2

/-- `Tree::search`: the single-legal-move fast path returns `[(move, 1.0)]`
without any tree work; otherwise build the root, run the loop (which always
completes at least one iteration before checking any limit — `iters`
abstracts how many the limits allow) and return every root move with its
branch visit count. -/
noncomputable def search {g : MGame} (iters : ℕ) (st : g.Pos) :
    Except SearchError (List (g.Move × ℝ)) :=
  match g.legalMoves st with
  | [m] => Except.ok [(m, 1)]
  | _ =>
    match iterateN (iters + 1) (createNode g st) with
    | Except.error e => Except.error e
    | Except.ok root => Except.ok (root.branches.map fun e => (e.1, e.2.visit_count))

/-- Sum of the branch visit counts of a node (`Σ branches[m].visit_count`). -/
def sumVisits {μ : Type} (l : List (μ × BranchData)) : ℝ :=
  (l.map fun e => e.2.visit_count).sum

/-- The branch-accounting invariant of one node:
`total_visit_count = 1 + Σ branches[m].visit_count`. -/
def NodeAccount {g : MGame} (t : MTree g) : Prop :=
  t.total_visit_count = 1 + sumVisits t.branches

/-- The branch keys of one node are distinct (they come from a `HashMap`
keyed by distinct legal moves). -/
def KeysOk {g : MGame} (t : MTree g) : Prop :=
  (t.branches.map Prod.fst).Nodup

/-- Accounting plus distinct keys: the invariant `step` preserves. -/
def StrongInv {g : MGame} (t : MTree g) : Prop :=
  NodeAccount t ∧ KeysOk t

/-- A predicate holding at every node of a tree. -/
def AllNodes {g : MGame} (P : MTree g → Prop) : MTree g → Prop
  | .mk st v tv brs chs =>
    P (.mk st v tv brs chs) ∧ ∀ e ∈ chs.attach, AllNodes P e.val.2
termination_by t => sizeOf t
decreasing_by
  obtain ⟨⟨m, c⟩, hmem⟩ := e
  have h1 := List.sizeOf_lt_of_mem hmem
  simp only [Prod.mk.sizeOf_spec] at h1
  simp only [MTree.mk.sizeOf_spec]
  omega

/-- A worker game with a single legal move everywhere, used as the concrete
input of several witnesses. -/
abbrev G1 : MGame where
  Pos := ℕ
  Move := ℕ
  deq := inferInstance
  legalMoves := fun _ => [7]
  makeMove := fun s _ => s + 1
  ongoing := fun _ => true
  value := fun _ => 0
  prior := fun _ _ => 0
  noiseSample := fun _ _ => 0
  c := 1
  noise := 0

/-- A concrete node over `G1` with one branch, used as the concrete input
of the selection and expansion witnesses. -/
noncomputable def demoNode : MTree G1 :=
  MTree.mk 0 0 1 [(7, ⟨1, 0, 0⟩)] []

/-- A game with the aggregator's noise setting (`lib.rs` passes 0.3; any
non-zero value shows the same behaviour, here 1): position 0 has the single
move 10 leading to position 1, which has two legal moves 20 and 21, all
evaluator priors 0 and all Dirichlet samples 1. -/
abbrev G5 : MGame where
  Pos := ℕ
  Move := ℕ
  deq := inferInstance
  legalMoves := fun s => if s = 0 then [10] else [20, 21]
  makeMove := fun _ _ => 1
  ongoing := fun _ => true
  value := fun _ => 0
  prior := fun _ _ => 0
  noiseSample := fun _ _ => 1
  c := 1
  noise := 1

/-- The stored prior of branch `bm` of the child linked under `cm` after one
iteration — the quantity C5 is about. -/
noncomputable def childBranchPrior {g : MGame}
    (r : Except SearchError (MTree g × ℝ)) (cm bm : g.Move) : Option ℝ :=
  match r with
  | Except.ok (t, _) =>
    match alookup t.children cm with
    | some c =>
      match alookup c.branches bm with
      | some b => some b.prior
      | none => none
    | none => none
  | Except.error _ => none

/-- A game whose root has no legal moves and a non-ongoing status: the
stalemate FEN `7k/5Q2/5K2/8/8/8/8/8 b - - 0 1` as the collaborator reports
it. -/
abbrev G8 : MGame where
  Pos := ℕ
  Move := ℕ
  deq := inferInstance
  legalMoves := fun _ => []
  makeMove := fun s _ => s
  ongoing := fun _ => false
  value := fun _ => 0
  prior := fun _ _ => 0
  noiseSample := fun _ _ => 0
  c := 1
  noise := 0

section MctsLemmas

variable {g : MGame}

lemma foldl_pick_mem {α : Type} (f : α → ℝ) (xs : List α) :
    ∀ x : α, xs.foldl (fun acc y => if f acc ≤ f y then y else acc) x ∈ x :: xs := by
  induction xs with
  | nil => intro x; exact List.mem_cons_self x []
  | cons z zs ih =>
    intro x
    rw [List.foldl_cons]
    rcases List.mem_cons.mp (ih (if f x ≤ f z then z else x)) with heq | hmem
    · rw [heq]
      by_cases h : f x ≤ f z
      · rw [if_pos h]
        exact List.mem_cons_of_mem x (List.mem_cons_self z zs)
      · rw [if_neg h]
        exact List.mem_cons_self x (z :: zs)
    · exact List.mem_cons_of_mem x (List.mem_cons_of_mem z hmem)

lemma foldl_pick_max {α : Type} (f : α → ℝ) (xs : List α) :
    ∀ x : α, ∀ y ∈ x :: xs,
      f y ≤ f (xs.foldl (fun acc y => if f acc ≤ f y then y else acc) x) := by
  induction xs with
  | nil =>
    intro x y hy
    rcases List.mem_cons.mp hy with rfl | hy0
    · exact le_refl (f y)
    · cases hy0
  | cons z zs ih =>
    intro x y hy
    rw [List.foldl_cons]
    have hx : f x ≤ f (if f x ≤ f z then z else x) := by
      by_cases h : f x ≤ f z
      · rw [if_pos h]; exact h
      · rw [if_neg h]
    have hz : f z ≤ f (if f x ≤ f z then z else x) := by
      by_cases h : f x ≤ f z
      · rw [if_pos h]
      · rw [if_neg h]; exact le_of_not_le h
    have hstart := ih (if f x ≤ f z then z else x) (if f x ≤ f z then z else x)
      (List.mem_cons_self _ zs)
    rcases List.mem_cons.mp hy with rfl | hy1
    · exact le_trans hx hstart
    · rcases List.mem_cons.mp hy1 with rfl | hy2
      · exact le_trans hz hstart
      · exact ih (if f x ≤ f z then z else x) y (List.mem_cons_of_mem _ hy2)

lemma maxByLast_mem {α : Type} (f : α → ℝ) (l : List α) (m : α)
    (h : maxByLast f l = some m) : m ∈ l := by
  cases l with
  | nil => simp [maxByLast] at h
  | cons x xs =>
    simp only [maxByLast, Option.some.injEq] at h
    rw [← h]
    exact foldl_pick_mem f xs x

lemma maxByLast_max {α : Type} (f : α → ℝ) (l : List α) (m : α)
    (h : maxByLast f l = some m) : ∀ a ∈ l, f a ≤ f m := by
  cases l with
  | nil => intro a ha; cases ha
  | cons x xs =>
    simp only [maxByLast, Option.some.injEq] at h
    intro a ha
    rw [← h]
    exact foldl_pick_max f xs x a ha

lemma selectBranch_ok_mem (t : MTree g) (m : g.Move)
    (h : selectBranch t = Except.ok m) : m ∈ t.branches.map Prod.fst := by
  unfold selectBranch at h
  cases hm : maxByLast (scoreBranch t) (t.branches.map Prod.fst) with
  | none => rw [hm] at h; cases h
  | some x =>
    rw [hm] at h
    obtain rfl : x = m := by injection h
    exact maxByLast_mem _ _ _ hm

lemma selectBranch_ok_max (t : MTree g) (m : g.Move)
    (h : selectBranch t = Except.ok m) :
    ∀ a ∈ t.branches.map Prod.fst, scoreBranch t a ≤ scoreBranch t m := by
  unfold selectBranch at h
  cases hm : maxByLast (scoreBranch t) (t.branches.map Prod.fst) with
  | none => rw [hm] at h; cases h
  | some x =>
    rw [hm] at h
    obtain rfl : x = m := by injection h
    exact maxByLast_max _ _ _ hm

lemma recordVisit_children (t : MTree g) (a : g.Move) (v : ℝ) :
    (recordVisit t a v).children = t.children := by
  cases t; rfl

lemma recordVisit_total (t : MTree g) (a : g.Move) (v : ℝ) :
    (recordVisit t a v).total_visit_count = t.total_visit_count + 1 := by
  cases t; rfl

lemma recordVisit_branches (t : MTree g) (a : g.Move) (v : ℝ) :
    (recordVisit t a v).branches = t.branches.map fun e =>
      if e.1 = a then (e.1, ⟨e.2.prior, e.2.visit_count + 1, e.2.total_value + v⟩) else e := by
  cases t; rfl

lemma replaceChild_total (t : MTree g) (a : g.Move) (c : MTree g) :
    (replaceChild t a c).total_visit_count = t.total_visit_count := by
  cases t; rfl

lemma replaceChild_branches (t : MTree g) (a : g.Move) (c : MTree g) :
    (replaceChild t a c).branches = t.branches := by
  cases t; rfl

lemma replaceChild_children (t : MTree g) (a : g.Move) (c : MTree g) :
    (replaceChild t a c).children =
      t.children.map fun e => if e.1 = a then (e.1, c) else e := by
  cases t; rfl

lemma addChild_total (t : MTree g) (a : g.Move) (c : MTree g) :
    (addChild t a c).total_visit_count = t.total_visit_count := by
  cases t; rfl

lemma addChild_branches (t : MTree g) (a : g.Move) (c : MTree g) :
    (addChild t a c).branches = t.branches := by
  cases t; rfl

lemma addChild_children (t : MTree g) (a : g.Move) (c : MTree g) :
    (addChild t a c).children = t.children ++ [(a, c)] := by
  cases t; rfl

lemma bump_keys {μ : Type} [DecidableEq μ] (l : List (μ × BranchData)) (a : μ) (v : ℝ) :
    ((l.map fun e =>
        if e.1 = a then (e.1, (⟨e.2.prior, e.2.visit_count + 1, e.2.total_value + v⟩ :
          BranchData)) else e).map Prod.fst) = l.map Prod.fst := by
  rw [List.map_map]
  refine List.map_congr_left fun e _ => ?_
  by_cases h : e.1 = a <;> simp [h]

lemma sumVisits_cons {μ : Type} (e : μ × BranchData) (l : List (μ × BranchData)) :
    sumVisits (e :: l) = e.2.visit_count + sumVisits l := by
  simp [sumVisits]

lemma sumVisits_bump {μ : Type} [DecidableEq μ] (l : List (μ × BranchData)) (a : μ)
    (v : ℝ) (hnd : (l.map Prod.fst).Nodup) (hmem : a ∈ l.map Prod.fst) :
    sumVisits (l.map fun e =>
      if e.1 = a then (e.1, (⟨e.2.prior, e.2.visit_count + 1, e.2.total_value + v⟩ :
        BranchData)) else e) = sumVisits l + 1 := by
  induction l with
  | nil => simp at hmem
  | cons e rest ih =>
    simp only [List.map_cons, List.nodup_cons] at hnd
    rcases List.mem_cons.mp hmem with heq | hrest
    · have heq1 : e.1 = a := heq.symm
      rw [List.map_cons, if_pos heq1]
      have hnot : ∀ x ∈ rest, ¬(x.1 = a) := by
        intro x hx hxa
        exact hnd.1 (heq1 ▸ hxa ▸ List.mem_map_of_mem Prod.fst hx)
      have hrw : (rest.map fun x =>
          if x.1 = a then (x.1, (⟨x.2.prior, x.2.visit_count + 1, x.2.total_value + v⟩ :
            BranchData)) else x) = rest := by
        have hcong := List.map_congr_left (l := rest)
          (f := fun x : μ × BranchData =>
            if x.1 = a then (x.1, (⟨x.2.prior, x.2.visit_count + 1, x.2.total_value + v⟩ :
              BranchData)) else x)
          (g := id) (fun x hx => if_neg (hnot x hx))
        rw [hcong, List.map_id]
      rw [hrw, sumVisits_cons, sumVisits_cons]
      ring
    · have hne : ¬(e.1 = a) := by
        intro h0
        exact hnd.1 (h0 ▸ hrest)
      rw [List.map_cons, if_neg hne, sumVisits_cons, sumVisits_cons,
        ih hnd.2 hrest]
      ring

lemma sizeOf_child_lt (t : MTree g) (e : g.Move × MTree g) (he : e ∈ t.children) :
    sizeOf e.2 < sizeOf t := by
  have h1 := List.sizeOf_lt_of_mem he
  have h2 := t.sizeOf_children_lt
  obtain ⟨m, c⟩ := e
  simp only [Prod.mk.sizeOf_spec] at h1
  simp only []
  omega

lemma allNodes_iff (P : MTree g → Prop) (t : MTree g) :
    AllNodes P t ↔ P t ∧ ∀ e ∈ t.children, AllNodes P e.2 := by
  cases t with
  | mk st v tv brs chs =>
    rw [AllNodes]
    simp only [MTree.children]
    constructor
    · rintro ⟨hp, hc⟩
      exact ⟨hp, fun e he => hc ⟨e, he⟩ (List.mem_attach _ _)⟩
    · rintro ⟨hp, hc⟩
      exact ⟨hp, fun e _ => hc e.val e.property⟩

lemma allNodes_mono_aux (P Q : MTree g → Prop) (hpq : ∀ s, P s → Q s) :
    ∀ N, ∀ t : MTree g, sizeOf t ≤ N → AllNodes P t → AllNodes Q t := by
  intro N
  induction N with
  | zero =>
    intro t ht
    exfalso
    cases t with
    | mk st v tv brs chs =>
      simp only [MTree.mk.sizeOf_spec] at ht
      omega
  | succ N ih =>
    intro t hsz hP
    rw [allNodes_iff] at hP ⊢
    refine ⟨hpq t hP.1, fun e he => ?_⟩
    refine ih e.2 ?_ (hP.2 e he)
    have := sizeOf_child_lt t e he
    omega

lemma allNodes_imp (P Q : MTree g → Prop) (hpq : ∀ s, P s → Q s) (t : MTree g)
    (h : AllNodes P t) : AllNodes Q t :=
  allNodes_mono_aux P Q hpq (sizeOf t) t (le_refl _) h

lemma mapIdx_pair_fst {α β : Type} :
    ∀ (l : List α) (h : ℕ → α → β),
      (l.mapIdx fun i a => (a, h i a)).map Prod.fst = l := by
  intro l
  induction l with
  | nil => intro h; simp
  | cons x xs ih =>
    intro h
    rw [List.mapIdx_cons]
    rw [List.map_cons]
    exact congrArg (x :: ·) (ih fun i a => h (i + 1) a)

lemma map_mapIdx {α β γ : Type} : ∀ (l : List α) (f : ℕ → α → β) (h : β → γ),
    (l.mapIdx f).map h = l.mapIdx fun i a => h (f i a) := by
  intro l
  induction l with
  | nil => intro f h; simp
  | cons x xs ih =>
    intro f h
    rw [List.mapIdx_cons, List.map_cons, List.mapIdx_cons]
    exact congrArg (h (f 0 x) :: ·) (ih _ h)

lemma nodePriors_keys (g : MGame) (st : g.Pos) :
    (nodePriors g st).map Prod.fst = g.legalMoves st := by
  unfold nodePriors
  split
  · exact mapIdx_pair_fst (g.legalMoves st) _
  · rw [List.map_map]
    exact List.map_congr_left (fun a _ => rfl) |>.trans (List.map_id _)

lemma nodePriors_nil (g : MGame) (st : g.Pos) (h : g.legalMoves st = []) :
    nodePriors g st = [] := by
  unfold nodePriors
  rw [h]
  split <;> simp

lemma createNode_total (g : MGame) (st : g.Pos) :
    (createNode g st).total_visit_count = 1 := rfl

lemma createNode_children (g : MGame) (st : g.Pos) :
    (createNode g st).children = [] := rfl

lemma createNode_value (g : MGame) (st : g.Pos) :
    (createNode g st).value = g.value st := rfl

lemma createNode_keys (g : MGame) (st : g.Pos) :
    (createNode g st).branches.map Prod.fst = g.legalMoves st := by
  unfold createNode
  simp only [MTree.branches, List.map_map]
  have hcomp : (Prod.fst ∘ fun e : g.Move × ℝ =>
      (e.1, (⟨e.2, 0, 0⟩ : BranchData))) = Prod.fst := rfl
  rw [hcomp]
  exact nodePriors_keys g st

lemma createNode_sumVisits (g : MGame) (st : g.Pos) :
    sumVisits (createNode g st).branches = 0 := by
  unfold createNode
  simp only [MTree.branches, sumVisits, List.map_map]
  have hcomp : ((fun e : g.Move × BranchData => e.2.visit_count) ∘
      fun e : g.Move × ℝ => (e.1, (⟨e.2, 0, 0⟩ : BranchData))) =
      fun _ : g.Move × ℝ => (0 : ℝ) := rfl
  rw [hcomp]
  induction nodePriors g st with
  | nil => simp
  | cons x xs ih => simp [ih]

lemma createNode_inv (g : MGame) (hnd : ∀ s, (g.legalMoves s).Nodup) (st : g.Pos) :
    AllNodes StrongInv (createNode g st) := by
  rw [allNodes_iff]
  refine ⟨⟨?_, ?_⟩, ?_⟩
  · unfold NodeAccount
    rw [createNode_total, createNode_sumVisits]
    ring
  · unfold KeysOk
    rw [createNode_keys]
    exact hnd st
  · rw [createNode_children]
    intro e he
    cases he

/-- Inversion of one successful `step`: the selected move, and either the
descent case (an existing child was stepped and replaced) or the expansion
case (a new child was created and linked only when its state is ongoing). -/
lemma step_ok_elim (t t2 : MTree g) (v : ℝ) (h : step t = Except.ok (t2, v)) :
    ∃ m, selectBranch t = Except.ok m ∧
      ((∃ c c2 w, alookup t.children m = some c ∧ step c = Except.ok (c2, w) ∧
          v = -w ∧ t2 = recordVisit (replaceChild t m c2) m (-w)) ∨
        (alookup t.children m = none ∧
          v = -(g.value (g.makeMove t.state m)) ∧
          t2 = recordVisit
            (if g.ongoing (g.makeMove t.state m) then
              addChild t m (createNode g (g.makeMove t.state m)) else t) m
            (-(g.value (g.makeMove t.state m))))) := by
  rw [step] at h
  cases hsel : selectBranch t with
  | error e =>
    rw [hsel] at h
    split at h
    · cases h
    · rename_i m heq
      cases heq
  | ok m =>
    rw [hsel] at h
    split at h
    · rename_i e heq
      cases heq
    · rename_i m1 heq
      cases heq
      refine ⟨m, rfl, ?_⟩
      split at h
      · rename_i c hc
        split at h
        · cases h
        · rename_i p c2 w heq2
          simp only [Except.ok.injEq, Prod.mk.injEq] at h
          exact Or.inl ⟨c, c2, w, hc, heq2, h.2.symm, h.1.symm⟩
      · rename_i hc
        simp only [Except.ok.injEq, Prod.mk.injEq, createNode_value] at h
        exact Or.inr ⟨hc, h.2.symm, h.1.symm⟩

lemma alookup_mem {κ ν : Type} [DecidableEq κ] (l : List (κ × ν)) (k : κ) (v : ν)
    (h : alookup l k = some v) : (k, v) ∈ l := by
  induction l with
  | nil => simp [alookup] at h
  | cons e rest ih =>
    rw [alookup] at h
    by_cases hk : e.1 = k
    · rw [if_pos hk] at h
      obtain ⟨k1, v1⟩ := e
      obtain rfl : k1 = k := hk
      obtain rfl : v1 = v := Option.some.inj h
      exact List.mem_cons_self _ _
    · rw [if_neg hk] at h
      exact List.mem_cons_of_mem e (ih h)

lemma step_total (t t2 : MTree g) (v : ℝ) (h : step t = Except.ok (t2, v)) :
    t2.total_visit_count = t.total_visit_count + 1 := by
  obtain ⟨m, hsel, hcase⟩ := step_ok_elim t t2 v h
  rcases hcase with ⟨c, c2, w, hc, hstep, hv, ht2⟩ | ⟨hc, hv, ht2⟩
  · rw [ht2, recordVisit_total, replaceChild_total]
  · rw [ht2, recordVisit_total]
    by_cases hon : g.ongoing (g.makeMove t.state m) = true
    · rw [if_pos hon, addChild_total]
    · rw [if_neg hon]

lemma step_inv (hnd : ∀ s, (g.legalMoves s).Nodup) :
    ∀ N, ∀ t : MTree g, sizeOf t ≤ N → AllNodes StrongInv t →
      ∀ t2 v, step t = Except.ok (t2, v) → AllNodes StrongInv t2 := by
  intro N
  induction N with
  | zero =>
    intro t ht _ t2 v _
    exfalso
    cases t with
    | mk st vl tv brs chs =>
      simp only [MTree.mk.sizeOf_spec] at ht
      omega
  | succ N ih =>
    intro t hsz hInv t2 v hstep
    obtain ⟨m, hsel, hcase⟩ := step_ok_elim t t2 v hstep
    have hmem : m ∈ t.branches.map Prod.fst := selectBranch_ok_mem t m hsel
    rw [allNodes_iff] at hInv
    obtain ⟨⟨hacct, hkeys⟩, hch⟩ := hInv
    rcases hcase with ⟨c, c2, w, hc, hstepc, hv, ht2⟩ | ⟨hc, hv, ht2⟩
    · have hcmem : (m, c) ∈ t.children := alookup_mem _ _ _ hc
      have hInvc2 : AllNodes StrongInv c2 := by
        refine ih c ?_ (hch (m, c) hcmem) c2 w hstepc
        have hlt : sizeOf c < sizeOf t := sizeOf_child_lt t (m, c) hcmem
        omega
      rw [ht2, allNodes_iff]
      constructor
      · constructor
        · unfold NodeAccount
          rw [recordVisit_total, replaceChild_total, recordVisit_branches,
            replaceChild_branches, sumVisits_bump _ _ _ hkeys hmem]
          unfold NodeAccount at hacct
          rw [hacct]
          ring
        · unfold KeysOk
          rw [recordVisit_branches, replaceChild_branches, bump_keys]
          exact hkeys
      · intro e he
        rw [recordVisit_children, replaceChild_children] at he
        obtain ⟨x, hx, hxe⟩ := List.mem_map.mp he
        by_cases hxm : x.1 = m
        · rw [if_pos hxm] at hxe
          rw [← hxe]
          exact hInvc2
        · rw [if_neg hxm] at hxe
          rw [← hxe]
          exact hch x hx
    · rw [ht2, allNodes_iff]
      by_cases hon : g.ongoing (g.makeMove t.state m) = true
      · rw [if_pos hon]
        constructor
        · constructor
          · unfold NodeAccount
            rw [recordVisit_total, addChild_total, recordVisit_branches,
              addChild_branches, sumVisits_bump _ _ _ hkeys hmem]
            unfold NodeAccount at hacct
            rw [hacct]
            ring
          · unfold KeysOk
            rw [recordVisit_branches, addChild_branches, bump_keys]
            exact hkeys
        · intro e he
          rw [recordVisit_children, addChild_children] at he
          rcases List.mem_append.mp he with hold | hnew
          · exact hch e hold
          · rw [List.mem_singleton.mp hnew]
            exact createNode_inv g hnd _
      · rw [if_neg hon]
        constructor
        · constructor
          · unfold NodeAccount
            rw [recordVisit_total, recordVisit_branches,
              sumVisits_bump _ _ _ hkeys hmem]
            unfold NodeAccount at hacct
            rw [hacct]
            ring
          · unfold KeysOk
            rw [recordVisit_branches, bump_keys]
            exact hkeys
        · intro e he
          rw [recordVisit_children] at he
          exact hch e he

lemma iterateN_total : ∀ (n : ℕ) (t t2 : MTree g), iterateN n t = Except.ok t2 →
    t2.total_visit_count = t.total_visit_count + (n : ℝ) := by
  intro n
  induction n with
  | zero =>
    intro t t2 h
    obtain rfl : t = t2 := by simpa [iterateN] using h
    simp
  | succ n ih =>
    intro t t2 h
    rw [iterateN] at h
    split at h
    · cases h
    · rename_i t1 v heq
      rw [ih t1 t2 h, step_total t t1 v heq]
      push_cast
      ring

lemma iterateN_inv (hnd : ∀ s, (g.legalMoves s).Nodup) :
    ∀ (n : ℕ) (t t2 : MTree g), AllNodes StrongInv t → iterateN n t = Except.ok t2 →
      AllNodes StrongInv t2 := by
  intro n
  induction n with
  | zero =>
    intro t t2 hInv h
    obtain rfl : t = t2 := by simpa [iterateN] using h
    exact hInv
  | succ n ih =>
    intro t t2 hInv h
    rw [iterateN] at h
    split at h
    · cases h
    · rename_i t1 v heq
      exact ih t1 t2 (step_inv hnd (sizeOf t) t (le_refl _) hInv t1 v heq) h

/-- Evaluation of `step` in the expansion case: the selected move has no
child, so a child node is created for the successor state, linked only when
that state is ongoing, and its negated leaf value is recorded. -/
lemma step_expand (t : MTree g) (m : g.Move) (hm : selectBranch t = Except.ok m)
    (hnc : alookup t.children m = none) :
    step t = Except.ok
      (recordVisit
        (if g.ongoing (g.makeMove t.state m) then
          addChild t m (createNode g (g.makeMove t.state m)) else t) m
        (-(g.value (g.makeMove t.state m))),
       -(g.value (g.makeMove t.state m))) := by
  rw [step]
  split
  · rename_i e heq
    rw [hm] at heq
    cases heq
  · rename_i m1 heq
    rw [hm] at heq
    obtain rfl : m1 = m := (Except.ok.inj heq).symm
    split
    · rename_i c heq2
      rw [hnc] at heq2
      cases heq2
    · rfl

lemma selectBranch_err (t : MTree g) (hb : t.branches = []) :
    selectBranch t = Except.error SearchError.emptyMoveList := by
  unfold selectBranch
  rw [hb]
  rfl

lemma createNode_branches_nil (g : MGame) (st : g.Pos) (h : g.legalMoves st = []) :
    (createNode g st).branches = [] := by
  unfold createNode
  rw [nodePriors_nil g st h]
  rfl

lemma step_err (t : MTree g) (hb : t.branches = []) :
    step t = Except.error SearchError.emptyMoveList := by
  rw [step, selectBranch_err t hb]

lemma search_no_moves (g : MGame) (st : g.Pos) (h : g.legalMoves st = []) (n : ℕ) :
    search n st = Except.error SearchError.emptyMoveList := by
  have hiter : iterateN (n + 1) (createNode g st) =
      Except.error SearchError.emptyMoveList := by
    rw [iterateN, step_err _ (createNode_branches_nil g st h)]
  unfold search
  rw [h]
  show (match iterateN (n + 1) (createNode g st) with
    | Except.error e => Except.error e
    | Except.ok root => Except.ok (root.branches.map fun e => (e.1, e.2.visit_count))) =
      Except.error SearchError.emptyMoveList
  rw [hiter]

lemma drainResults_nil_dict {M : Type} [DecidableEq M] (recv : List (M × ℕ)) :
    drainResults ([] : List (M × ℕ)) recv = [] := by
  rw [drainResults_formula]
  rfl

end MctsLemmas

/-- C2: a position with exactly one legal move returns `[(that move, 1.0)]`
from `Tree::search` for every iteration budget — the fast path returns
before the root node is built or any iteration runs, so the result does not
depend on the budget. -/
theorem search_single_move (g : MGame) (st : g.Pos) (m : g.Move)
    (h : g.legalMoves st = [m]) (n : ℕ) :
    search n st = Except.ok [(m, 1)] := by
  unfold search
  rw [h]

/-- C2 witness: the single-move game `G1` (the spec's single-legal-move FEN
`7k/5Q2/6K1/8/8/8/8/8 b - - 0 1` has this shape: one legal king move). -/
theorem search_single_move_witness :
    G1.legalMoves 0 = [7] ∧ search (g := G1) 3 (0 : ℕ) = Except.ok [(7, 1)] :=
  ⟨rfl, search_single_move G1 0 7 rfl 3⟩

/-- C3: on every node with at least one legal move, `Tree::select_branch`
returns a move of the node whose `score_branch` value —
`q + c · p · sqrt(ln N / (n + 1e-7))` with `q = 0` for an unvisited branch,
as transcribed in `scoreBranch` — is maximal among all the node's legal
moves. -/
theorem select_branch_argmax (g : MGame) (t : MTree g) (h : t.branches ≠ []) :
    ∃ m, selectBranch t = Except.ok m ∧ m ∈ t.branches.map Prod.fst ∧
      ∀ a ∈ t.branches.map Prod.fst, scoreBranch t a ≤ scoreBranch t m := by
  obtain ⟨e, rest, heq⟩ := List.exists_cons_of_ne_nil h
  have hsel : ∃ m, selectBranch t = Except.ok m := by
    unfold selectBranch
    rw [heq, List.map_cons]
    simp only [maxByLast]
    exact ⟨_, rfl⟩
  obtain ⟨m, hm⟩ := hsel
  exact ⟨m, hm, selectBranch_ok_mem t m hm, selectBranch_ok_max t m hm⟩

/-- C3 witness: selection at a concrete one-branch node. -/
theorem select_branch_argmax_witness :
    demoNode.branches ≠ [] ∧
    (∃ m, selectBranch demoNode = Except.ok m ∧
      m ∈ demoNode.branches.map Prod.fst ∧
      ∀ a ∈ demoNode.branches.map Prod.fst,
        scoreBranch demoNode a ≤ scoreBranch demoNode m) :=
  ⟨List.cons_ne_nil _ _, select_branch_argmax G1 demoNode (List.cons_ne_nil _ _)⟩

/-- C4: after any number of completed iterations from a fresh root, every
node of the tree satisfies `total_visit_count = 1 + Σ branches[m].visit_count`;
a fresh node starts at total 1 with all branch counts 0. -/
theorem branch_accounting (g : MGame) (hnd : ∀ s, (g.legalMoves s).Nodup)
    (st : g.Pos) (n : ℕ) (t : MTree g)
    (h : iterateN n (createNode g st) = Except.ok t) :
    AllNodes NodeAccount t ∧
    (createNode g st).total_visit_count = 1 ∧
    ∀ e ∈ (createNode g st).branches, e.2.visit_count = 0 := by
  refine ⟨?_, createNode_total g st, ?_⟩
  · have hInv := iterateN_inv hnd n (createNode g st) t (createNode_inv g hnd st) h
    exact allNodes_imp StrongInv NodeAccount (fun s hs => hs.1) t hInv
  · intro e he
    unfold createNode at he
    simp only [MTree.branches] at he
    obtain ⟨x, hx, rfl⟩ := List.mem_map.mp he
    rfl

/-- C4 witness: the invariant after zero iterations on the fresh root of
`G1`. -/
theorem branch_accounting_witness :
    iterateN 0 (createNode G1 0) = Except.ok (createNode G1 0) ∧
    AllNodes NodeAccount (createNode G1 0) :=
  ⟨rfl, (branch_accounting G1 (fun _ => by simp) 0 0 (createNode G1 0) rfl).1⟩

/-- C5 (amended): Dirichlet mixing `prior' = 0.5·prior + 0.5·noise` is
applied by `create_node` to EVERY node it creates whose state has at least
two legal moves while the configured noise is non-zero — interior expansion
nodes included, not only the root; only when the noise is zero or the state
has at most one legal move are the evaluator's priors stored unchanged. -/
theorem dirichlet_mix_every_node (g : MGame) (st : g.Pos) :
    (g.noise ≠ 0 → 1 < (g.legalMoves st).length →
      (createNode g st).branches = (g.legalMoves st).mapIdx fun i a =>
        (a, (⟨g.prior st a * (1 / 2) + g.noiseSample st i * (1 / 2), 0, 0⟩ :
          BranchData))) ∧
    (¬(g.noise ≠ 0 ∧ 1 < (g.legalMoves st).length) →
      (createNode g st).branches = (g.legalMoves st).map fun a =>
        (a, (⟨g.prior st a, 0, 0⟩ : BranchData))) := by
  constructor
  · intro hn hm
    unfold createNode nodePriors
    rw [if_pos ⟨hn, hm⟩]
    simp only [MTree.branches]
    exact map_mapIdx (g.legalMoves st) _ _
  · intro hcond
    unfold createNode nodePriors
    rw [if_neg hcond]
    simp only [MTree.branches]
    rw [List.map_map]
    rfl

/-- C5 witness: the mixing at the concrete two-move position of `G5`, and
the unchanged priors at its single-move root position. -/
theorem dirichlet_mix_every_node_witness :
    ((createNode G5 1).branches = (G5.legalMoves 1).mapIdx fun i a =>
      (a, (⟨G5.prior 1 a * (1 / 2) + G5.noiseSample 1 i * (1 / 2), 0, 0⟩ :
        BranchData))) ∧
    ((createNode G5 0).branches = (G5.legalMoves 0).map fun a =>
      (a, (⟨G5.prior 0 a, 0, 0⟩ : BranchData))) :=
  ⟨(dirichlet_mix_every_node G5 1).1 one_ne_zero (by decide),
   (dirichlet_mix_every_node G5 0).2 fun hcon => by
      have h2 := hcon.2
      simp [G5] at h2⟩

/-- C5, counterexample: in `G5` one iteration from the root expands the
child under move 10 — a non-root node created during expansion — and the
prior stored for its move 20 is `1/2` (half prior, half Dirichlet sample),
not the evaluator's prior `0`. -/
theorem noise_on_expansion_cex :
    childBranchPrior (step (createNode (g := G5) 0)) 10 20 = some (1 / 2) ∧
    G5.prior 1 20 = 0 ∧ (1 / 2 : ℝ) ≠ 0 := by
  refine ⟨?_, rfl, by norm_num⟩
  have hroot : createNode (g := G5) 0 =
      MTree.mk 0 0 1 [(10, ⟨0, 0, 0⟩)] [] := by
    unfold createNode nodePriors
    rw [if_neg]
    · norm_num [G5]
    · intro hcon
      have h2 := hcon.2
      simp [G5] at h2
  have hchild : createNode (g := G5) 1 =
      MTree.mk 1 0 1 [(20, ⟨1 / 2, 0, 0⟩), (21, ⟨1 / 2, 0, 0⟩)] [] := by
    unfold createNode nodePriors
    rw [if_pos ⟨one_ne_zero, by simp [G5]⟩]
    simp [G5]
  have hsel : selectBranch (createNode (g := G5) 0) = Except.ok 10 := by
    rw [hroot]
    rfl
  have hstep := step_expand (createNode (g := G5) 0) 10 hsel rfl
  rw [hstep]
  show childBranchPrior
      (Except.ok (recordVisit
        (addChild (createNode (g := G5) 0) 10 (createNode (g := G5) 1)) 10
        (-(G5.value 1)), -(G5.value 1))) 10 20 = some (1 / 2)
  rw [hchild, hroot]
  rfl

/-- C6: in the expansion phase, when the selected move of a node has no
child yet, a child is created for the successor state; if that state is not
ongoing the node's `children` mapping is left unchanged (only the child's
leaf value is backpropagated), and if it is ongoing `children` is extended
with exactly the binding `selected_move ↦ child`. -/
theorem expansion_linking (g : MGame) (t : MTree g) (m : g.Move)
    (hm : selectBranch t = Except.ok m) (hnc : alookup t.children m = none) :
    ∃ t2, step t = Except.ok (t2, -(g.value (g.makeMove t.state m))) ∧
      (g.ongoing (g.makeMove t.state m) = false → t2.children = t.children) ∧
      (g.ongoing (g.makeMove t.state m) = true →
        t2.children = t.children ++ [(m, createNode g (g.makeMove t.state m))]) := by
  refine ⟨recordVisit
      (if g.ongoing (g.makeMove t.state m) then
        addChild t m (createNode g (g.makeMove t.state m)) else t) m
      (-(g.value (g.makeMove t.state m))), step_expand t m hm hnc, ?_, ?_⟩
  · intro hoff
    rw [recordVisit_children, if_neg (by rw [hoff]; exact Bool.false_ne_true)]
  · intro hon
    rw [recordVisit_children, if_pos hon, addChild_children]

/-- C6 witness: expansion at the concrete one-branch node `demoNode` (its
selected move 7 has no child). -/
theorem expansion_linking_witness :
    selectBranch demoNode = Except.ok 7 ∧ alookup demoNode.children 7 = none ∧
    ∃ t2, step demoNode = Except.ok (t2, -(G1.value (G1.makeMove demoNode.state 7))) ∧
      (G1.ongoing (G1.makeMove demoNode.state 7) = false → t2.children = demoNode.children) ∧
      (G1.ongoing (G1.makeMove demoNode.state 7) = true →
        t2.children = demoNode.children ++
          [(7, createNode G1 (G1.makeMove demoNode.state 7))]) :=
  ⟨rfl, rfl, expansion_linking G1 demoNode 7 rfl rfl⟩

/-- C8 (amended): for a root with no legal moves (status not ongoing, e.g.
the stalemate FEN), the search IS attempted: the root node is constructed
and `select_branch` panics indexing the empty move vector (modelled
`emptyMoveList`); the caller receives that failure and no move — at the
aggregator, the results vector for an empty move dictionary is empty, so
`results[0]` likewise panics (modelled `none`). -/
theorem terminal_root_error (g : MGame) (st : g.Pos) (h : g.legalMoves st = [])
    (n : ℕ) (recv : List (ℕ × ℕ)) :
    search n st = Except.error SearchError.emptyMoveList ∧
    bestAggregate ([] : List (ℕ × ℕ)) recv = none := by
  refine ⟨search_no_moves g st h n, ?_⟩
  unfold bestAggregate
  rw [drainResults_nil_dict]
  rfl

/-- C8 witness: the stalemate game `G8` with one received pair. -/
theorem terminal_root_error_witness :
    search (g := G8) 0 (0 : ℕ) = Except.error SearchError.emptyMoveList ∧
    bestAggregate ([] : List (ℕ × ℕ)) [(5, 5)] = none :=
  terminal_root_error G8 0 rfl 0 [(5, 5)]

/-- C8, counterexample: at the stalemate root the failure the caller sees
is the selection panic raised from inside the attempted search (the root
was built and selection ran on its empty move list), not a terminal-at-root
report issued before searching. -/
theorem terminal_root_cex :
    search (g := G8) 0 (0 : ℕ) = Except.error SearchError.emptyMoveList ∧
    SearchError.emptyMoveList ≠ SearchError.terminalAtRoot :=
  ⟨search_no_moves G8 0 rfl 0, by decide⟩

/-- C10: the backpropagation loop of every completed iteration ascends from
the expanded node to the root recording exactly one visit per node on the
path (the sign of the backed-up value flipping each ply, starting from
`-child.value`, is the definition of `step`); consequently each successful
`step` increments the root's total visit count by exactly 1, and after `n`
completed iterations from a fresh root the root's total visit count is
`1 + n`. -/
theorem backprop_root_count (g : MGame) (st : g.Pos) (n : ℕ) (t : MTree g)
    (h : iterateN n (createNode g st) = Except.ok t) :
    t.total_visit_count = 1 + (n : ℝ) ∧
    ∀ (t0 t1 : MTree g) (v : ℝ), step t0 = Except.ok (t1, v) →
      t1.total_visit_count = t0.total_visit_count + 1 := by
  refine ⟨?_, fun t0 t1 v hs => step_total t0 t1 v hs⟩
  rw [iterateN_total n _ t h, createNode_total]

/-- C10 witness: zero iterations on the fresh root of `G1`. -/
theorem backprop_root_count_witness :
    iterateN 0 (createNode G1 0) = Except.ok (createNode G1 0) ∧
    (createNode G1 0).total_visit_count = 1 + ((0 : ℕ) : ℝ) :=
  ⟨rfl, (backprop_root_count G1 0 0 (createNode G1 0) rfl).1⟩

end Botfjord
